import Mathlib

/-!
Shallow embedding of the `apify-real-estate-scraper` repository
(`src/normalize.js`, `src/buyrentkenya.js`, `src/jiji.js`, `src/main.js`)
and proofs about the normalization pipeline, the per-source crawl state
machine and the orchestrator.

Modelling conventions:
* JavaScript strings are modelled as `List Char` (ASCII scope), wrapped in
  `String` at the public interfaces.
* JavaScript numbers are modelled as exact rationals `ℚ`; the special value
  `NaN` is represented by a dedicated constructor of `JsAmount`.
  Numeric price inputs are modelled as integers (string rendering of
  non-integral doubles is not exercised by any function under study).
* `null`/`undefined`/absent fields are modelled with `Option`.
-/

namespace Scraper

/-- JavaScript whitespace (the `\s` class and `trim`), ASCII scope. -/
def isWS (c : Char) : Bool :=
  c == ' ' || c == '\t' || c == '\n' || c == '\r' || c == '\x0b' || c == '\x0c'

/-- `String.prototype.trim`, on character lists. -/
def trimChars (l : List Char) : List Char :=
  ((l.dropWhile isWS).reverse.dropWhile isWS).reverse

/-- `String.prototype.toUpperCase`, ASCII scope. -/
def jsUpper (c : Char) : Char :=
  if 'a' ≤ c ∧ c ≤ 'z' then Char.ofNat (c.toNat - 32) else c

/-- `String.prototype.toLowerCase`, ASCII scope. -/
def jsLower (c : Char) : Char :=
  if 'A' ≤ c ∧ c ≤ 'Z' then Char.ofNat (c.toNat + 32) else c

/-- Numeric value of a list of decimal digit characters (most significant
first), as accumulated left to right. -/
def natVal (l : List Char) : ℕ :=
  l.foldl (fun a c => 10 * a + (c.toNat - 48)) 0

/-- `str.includes(sub)`: contiguous-substring test. -/
def containsSub (hay needle : List Char) : Bool :=
  match hay with
  | [] => needle.isEmpty
  | _ :: t => needle.isPrefixOf hay || containsSub t needle

/-! ## `normalizePrice` (src/normalize.js lines 16-59) -/

/-- A JavaScript number held in the `amount` slot: `null`, `NaN`, or a
finite value (modelled as an exact rational). -/
inductive JsAmount where
  | null : JsAmount
  | nan : JsAmount
  | num (q : ℚ) : JsAmount
deriving DecidableEq, Repr

/-- The `priceStr` argument of `normalizePrice`: `null`/`undefined`, a
string, or a number (integral numbers only; see module conventions). -/
inductive PriceInput where
  | pnull : PriceInput
  | pstr (s : String) : PriceInput
  | pnum (z : ℤ) : PriceInput
deriving DecidableEq, Repr

/-- JavaScript falsiness of the `priceStr` argument (`!priceStr`):
`null`, the empty string, and the number `0` are falsy. -/
def PriceInput.falsy : PriceInput → Bool
  | .pnull => true
  | .pstr s => s = ""
  | .pnum z => z = 0

/-- `String(z)` for an integral JavaScript number. -/
def intChars (z : ℤ) : List Char :=
  if z < 0 then '-' :: Nat.toDigits 10 z.natAbs else Nat.toDigits 10 z.natAbs

/-- The characters of `String(priceStr)` for a non-falsy input. -/
def PriceInput.chars : PriceInput → List Char
  | .pnull => []
  | .pstr s => s.toList
  | .pnum z => intChars z

/-- The result record of `normalizePrice`. -/
structure PriceRec where
  amount : JsAmount
  currency : String
  original : Option String
deriving DecidableEq, Repr

/-- `.replace(/KSH|KES|SH|\/=|SHILLINGS?/gi, '')` on an already
upper-cased string.  The `SHILLINGS?` alternative is unreachable: at any
position where it could match, the earlier alternative `SH` matches first,
and the scan then continues after the consumed characters. -/
def stripKES : List Char → List Char
  | [] => []
  | 'K' :: 'S' :: 'H' :: rest => stripKES rest
  | 'K' :: 'E' :: 'S' :: rest => stripKES rest
  | 'S' :: 'H' :: rest => stripKES rest
  | '/' :: '=' :: rest => stripKES rest
  | c :: rest => c :: stripKES rest

/-- `.replace(/USD|\$/gi, () => { sourceCurrency = 'USD'; return ''; })` on
an already upper-cased string: returns the stripped text and whether the
callback fired at least once (i.e. the source currency was set to USD). -/
def stripUSD : List Char → List Char × Bool
  | [] => ([], false)
  | 'U' :: 'S' :: 'D' :: rest => ((stripUSD rest).1, true)
  | '$' :: rest => ((stripUSD rest).1, true)
  | c :: rest => ((c :: (stripUSD rest).1), (stripUSD rest).2)

/-- Membership in the regex class `[\d.]`. -/
def isNumClass (c : Char) : Bool := c.isDigit || c = '.'

/-- `cleaned.match(/[\d.]+/)`: the first maximal run of digits/dots. -/
def firstNumRun : List Char → Option (List Char)
  | [] => none
  | c :: rest =>
      if isNumClass c then some ((c :: rest).takeWhile isNumClass)
      else firstNumRun rest

/-- `parseFloat` on a run of digits and dots: integer part up to the first
dot, fractional part up to the second dot; `NaN` (`none`) when no digit is
found before a second dot can cut the parse short. -/
def parseFloatRun (run : List Char) : Option ℚ :=
  let ip := run.takeWhile Char.isDigit
  let rest := run.drop ip.length
  match rest with
  | '.' :: r =>
      let fp := r.takeWhile Char.isDigit
      if ip = [] ∧ fp = [] then none
      else some ((natVal ip : ℚ) + (natVal fp : ℚ) / (10 : ℚ) ^ fp.length)
  | _ => if ip = [] then none else some (natVal ip : ℚ)

/-- `Math.round`: round half toward positive infinity, i.e.
`⌊q + 1/2⌋`, written with integer arithmetic so that it evaluates. -/
def jsRound (q : ℚ) : ℤ := Int.fdiv (2 * q.num + q.den) (2 * q.den)

/-- The exchange-rate constants (src/normalize.js lines 7-8). -/
def KES_TO_USD_RATE : ℚ := 64 / 10000

def USD_TO_KES_RATE : ℚ := 15625 / 100

/-- The conversion arm of `normalizePrice` (src/normalize.js lines 46-52),
for a finite non-null amount with `sourceCurrency ≠ targetCurrency`. -/
def convertAmount (src tgt : String) (a : ℚ) : ℚ :=
  if src = "KES" ∧ tgt = "USD" then (jsRound (a * KES_TO_USD_RATE * 100) : ℚ) / 100
  else if src = "USD" ∧ tgt = "KES" then (jsRound (a * USD_TO_KES_RATE) : ℚ)
  else a

/-- The whole conversion step: applied only when the amount is not `null`
and the currencies differ; `NaN` propagates through the arithmetic. -/
def applyConversion (src tgt : String) : JsAmount → JsAmount
  | .null => .null
  | .nan => .nan
  | .num a => .num (if src ≠ tgt then convertAmount src tgt a else a)

/-- `normalizePrice` (src/normalize.js lines 16-59). -/
def normalizePrice (priceStr : PriceInput) (targetCurrency : String) : PriceRec :=
  if priceStr.falsy then
    { amount := .null, currency := targetCurrency, original := none }
  else
    let original := trimChars priceStr.chars
    let afterSep := (original.map jsUpper).filter (fun c => !(c == ',' || isWS c))
    let afterKES := stripKES afterSep
    let usd := stripUSD afterKES
    let cleaned := trimChars usd.1
    let sourceCurrency := if usd.2 then "USD" else "KES"
    let amount : JsAmount :=
      match firstNumRun cleaned with
      | none => .null
      | some run =>
          let base : JsAmount := match parseFloatRun run with
            | none => .nan
            | some q => .num q
          if cleaned.contains 'M' then
            match base with
            | .num q => .num (q * 1000000)
            | b => b
          else if cleaned.contains 'K' then
            match base with
            | .num q => .num (q * 1000)
            | b => b
          else base
    { amount := applyConversion sourceCurrency targetCurrency amount
      currency := targetCurrency
      original := some (String.mk original) }

/-! ## `normalizeLocation` (src/normalize.js lines 66-134) -/

/-- The result record of `normalizeLocation`. -/
structure LocationRec where
  area : Option String
  city : Option String
  region : Option String
  original : Option String
deriving DecidableEq, Repr

/-- The fixed gazetteer `kenyaCities` (src/normalize.js lines 76-81), in
source order. -/
def kenyaCities : List (List Char) :=
  ["nairobi".toList, "mombasa".toList, "kisumu".toList, "nakuru".toList,
   "eldoret".toList, "thika".toList, "malindi".toList, "kitale".toList,
   "machakos".toList, "nyeri".toList, "naivasha".toList, "nanyuki".toList,
   "kiambu".toList, "kajiado".toList, "kilifi".toList, "lamu".toList,
   "garissa".toList, "kakamega".toList, "bungoma".toList, "embu".toList]

/-- The fixed city-to-region table `regions` (src/normalize.js lines
83-104), as an association list keyed by the gazetteer entry. -/
def regionsTable : List (List Char × String) :=
  [("nairobi".toList, "Nairobi"), ("mombasa".toList, "Coast"),
   ("kisumu".toList, "Nyanza"), ("nakuru".toList, "Rift Valley"),
   ("eldoret".toList, "Rift Valley"), ("thika".toList, "Central"),
   ("malindi".toList, "Coast"), ("kitale".toList, "Rift Valley"),
   ("machakos".toList, "Eastern"), ("nyeri".toList, "Central"),
   ("naivasha".toList, "Rift Valley"), ("nanyuki".toList, "Central"),
   ("kiambu".toList, "Central"), ("kajiado".toList, "Rift Valley"),
   ("kilifi".toList, "Coast"), ("lamu".toList, "Coast"),
   ("garissa".toList, "North Eastern"), ("kakamega".toList, "Western"),
   ("bungoma".toList, "Western"), ("embu".toList, "Eastern")]

/-- `regions[knownCity] || null`. -/
def regionOf (kc : List Char) : Option String :=
  (regionsTable.lookup kc).bind (fun r => if r = "" then none else some r)

/-- `knownCity.charAt(0).toUpperCase() + knownCity.slice(1)`. -/
def capitalizeCity (kc : List Char) : List Char :=
  match kc with
  | [] => []
  | c :: rest => jsUpper c :: rest

/-- `.replace(/[,\-\/]/g, ',')`. -/
def replaceDelims (l : List Char) : List Char :=
  l.map (fun c => if c = ',' ∨ c = '-' ∨ c = '/' then ',' else c)

/-- `String.prototype.split(',')` (JavaScript keeps empty segments). -/
def splitComma : List Char → List (List Char)
  | [] => [[]]
  | c :: t =>
      if c = ',' then [] :: splitComma t
      else
        match splitComma t with
        | [] => [[c]]
        | h :: r => (c :: h) :: r

/-- The trimmed non-empty segments of the cleaned location string
(`cleaned.split(',').map(p => p.trim()).filter(Boolean)`). -/
def locationParts (original : List Char) : List (List Char) :=
  ((splitComma (trimChars (replaceDelims original))).map trimChars).filter
    (fun p => !p.isEmpty)

/-- The inner gazetteer loop of `normalizeLocation`: the first gazetteer
entry (in gazetteer order) occurring case-insensitively in the segment. -/
def findCityInPart (part : List Char) : Option (List Char) :=
  kenyaCities.find? (fun kc => containsSub (part.map jsLower) kc)

/-- The outer loop: segments are scanned in order, the first segment that
matches any gazetteer entry wins. -/
def findCity (parts : List (List Char)) : Option (List Char) :=
  parts.findSome? findCityInPart

/-- `normalizeLocation` (src/normalize.js lines 66-134); `none` input also
covers `undefined` and other falsy values, and the empty string is falsy. -/
def normalizeLocation (locationStr : Option String) : LocationRec :=
  match locationStr with
  | none => { area := none, city := none, region := none, original := none }
  | some s =>
      if s = "" then { area := none, city := none, region := none, original := none }
      else
        let original := trimChars s.toList
        let parts := locationParts original
        let cityFound := findCity parts
        { area := (parts.head?).map String.mk
          city := cityFound.map (fun kc => String.mk (capitalizeCity kc))
          region := cityFound.bind regionOf
          original := some (String.mk original) }

/-! ## `extractPhoneNumbers`, `extractEmail`, `normalizeContact`
(src/normalize.js lines 141-219) -/

/-- One attempt of the group `(\+?254|0)?` followed by `[17]\d{8}` at a
fixed position, for a fixed group alternative `g` (already known to be a
prefix): returns the matched characters and the remaining input. -/
def phoneTail (g rest : List Char) : Option (List Char × List Char) :=
  match rest with
  | d :: t =>
      if (d = '1' ∨ d = '7') ∧ 8 ≤ t.length ∧ (t.take 8).all Char.isDigit then
        some (g ++ d :: t.take 8, t.drop 8)
      else none
  | [] => none

/-- Regex-engine backtracking order of the optional group `(\+?254|0)?`:
`+254`, then `254`, then `0`, then the empty match. -/
def phoneGroupAlts : List (List Char) :=
  [['+', '2', '5', '4'], ['2', '5', '4'], ['0'], []]

/-- A match attempt of `/(\+?254|0)?[17]\d{8}/` anchored at the head of
`cs`, trying group alternatives in backtracking order. -/
def phoneMatchAt (cs : List Char) : Option (List Char × List Char) :=
  phoneGroupAlts.findSome? (fun g =>
    if g.isPrefixOf cs then phoneTail g (cs.drop g.length) else none)

/-- The global scan of `String.match(/(\+?254|0)?[17]\d{8}/g)`: leftmost
matches, non-overlapping, resuming after each match; fuel-driven (the fuel
`cs.length` always suffices since every match consumes at least one
character). -/
def phoneScanAux : ℕ → List Char → List (List Char)
  | 0, _ => []
  | _ + 1, [] => []
  | fuel + 1, c :: rest =>
      match phoneMatchAt (c :: rest) with
      | some (m, after) => m :: phoneScanAux fuel after
      | none => phoneScanAux fuel rest

def phoneMatches (cs : List Char) : List (List Char) :=
  phoneScanAux cs.length cs

/-- Per-match normalization (src/normalize.js lines 193-201): strip
`[\s\-()]`, then rewrite the prefix to `+254` form. -/
def normalizePhoneMatch (m : List Char) : List Char :=
  let n := m.filter (fun c => !(isWS c || c == '-' || c == '(' || c == ')'))
  if ['0'].isPrefixOf n then '+' :: '2' :: '5' :: '4' :: n.drop 1
  else if ['2', '5', '4'].isPrefixOf n then '+' :: n
  else if ¬ ['+'].isPrefixOf n then '+' :: '2' :: '5' :: '4' :: n
  else n

/-- `if (!phones.includes(normalized)) phones.push(normalized)`. -/
def pushUnique {α : Type} [DecidableEq α] (acc : List α) (x : α) : List α :=
  if x ∈ acc then acc else acc ++ [x]

/-- `extractPhoneNumbers` (src/normalize.js lines 185-208). -/
def extractPhoneNumbers (s : String) : List String :=
  if s = "" then []
  else
    (phoneMatches s.toList).foldl
      (fun acc m => pushUnique acc (String.mk (normalizePhoneMatch m))) []

/-- Membership in the regex class `[\w.-]` (word characters, dot, hyphen). -/
def isEmailLocalClass (c : Char) : Bool :=
  c.isAlphanum || c = '_' || c = '.' || c = '-'

/-- Membership in the regex class `\w`. -/
def isWordClass (c : Char) : Bool := c.isAlphanum || c = '_'

/-- Backtracking of `[\w.-]+\.\w+` over the maximal class run `r` after the
`@`: the domain part gives back characters until a literal dot followed by
at least one word character is found; greediness picks the longest domain,
i.e. the last viable dot.  Returns the matched `domain ++ "." ++ tld`. -/
def emailDomainSplitAux : List Char → Option (List Char)
  | [] => none
  | c :: t =>
      match emailDomainSplitAux t with
      | some m => some (c :: m)
      | none =>
          if c = '.' ∧ t.takeWhile isWordClass ≠ [] then
            some (c :: t.takeWhile isWordClass)
          else none

/-- The domain part `[\w.-]+` must consume at least one character before
the literal dot, so the first character of the run is always part of it. -/
def emailDomainSplit (r : List Char) : Option (List Char) :=
  match r with
  | [] => none
  | c :: t => (emailDomainSplitAux t).map (fun m => c :: m)

/-- A match attempt of `/[\w.-]+@[\w.-]+\.\w+/` anchored at the head. -/
def emailMatchAt (cs : List Char) : Option (List Char) :=
  let lp := cs.takeWhile isEmailLocalClass
  if lp = [] then none
  else
    match cs.drop lp.length with
    | '@' :: r0 =>
        let dr := r0.takeWhile isEmailLocalClass
        (emailDomainSplit dr).map (fun dm => lp ++ '@' :: dm)
    | _ => none

/-- The first-match scan of `String.match(/[\w.-]+@[\w.-]+\.\w+/)`. -/
def emailScanAux : ℕ → List Char → Option (List Char)
  | 0, _ => none
  | _ + 1, [] => none
  | fuel + 1, c :: rest =>
      match emailMatchAt (c :: rest) with
      | some m => some m
      | none => emailScanAux fuel rest

/-- `extractEmail` (src/normalize.js lines 215-219). -/
def extractEmail (s : String) : Option String :=
  if s = "" then none
  else
    (emailScanAux s.toList.length s.toList).map
      (fun m => String.mk (m.map jsLower))

/-- The `contactData` argument of `normalizeContact`: `null`, a string, or
an object whose relevant fields are modelled as optional strings. -/
structure ContactObj where
  name : Option String := none
  agentName : Option String := none
  phone : Option String := none
  phoneNumber : Option String := none
  mobile : Option String := none
  whatsapp : Option String := none
  email : Option String := none
  mail : Option String := none
deriving DecidableEq, Repr

inductive ContactInput where
  | cnull : ContactInput
  | cstr (s : String) : ContactInput
  | cobj (o : ContactObj) : ContactInput
deriving DecidableEq, Repr

/-- The result record of `normalizeContact`. -/
structure ContactRec where
  name : Option String
  phone : List String
  email : Option String
  whatsapp : Option String
deriving DecidableEq, Repr

/-- JavaScript `a || b` over optional string fields: an absent, null or
empty-string value falls through. -/
def jsOrStr (a b : Option String) : Option String :=
  match a with
  | some s => if s = "" then b else some s
  | none => b

/-- `x || ''` as a plain string. -/
def jsOrEmpty (a : Option String) : String := (jsOrStr a none).getD ""

/-- `normalizeContact` (src/normalize.js lines 141-178). -/
def normalizeContact (contactData : ContactInput) : ContactRec :=
  match contactData with
  | .cnull => { name := none, phone := [], email := none, whatsapp := none }
  | .cstr s =>
      { name := none
        phone := extractPhoneNumbers s
        email := extractEmail s
        whatsapp := none }
  | .cobj o =>
      { name := jsOrStr (jsOrStr o.name o.agentName) none
        phone := extractPhoneNumbers (jsOrEmpty (jsOrStr o.phone (jsOrStr o.phoneNumber o.mobile)))
        email := extractEmail (jsOrEmpty (jsOrStr o.email o.mail))
        whatsapp :=
          match o.whatsapp with
          | none => none
          | some w =>
              if w = "" then none
              else (extractPhoneNumbers w).head? }

/-! ## `normalizeImages` (src/normalize.js lines 226-243) -/

/-- The `images` argument: `null`, a scalar string, or an array whose
entries are strings (`some s`) or non-string values (`none`). -/
inductive ImagesInput where
  | inull : ImagesInput
  | istr (s : String) : ImagesInput
  | iarr (l : List (Option String)) : ImagesInput
deriving DecidableEq, Repr

/-- The thumbnail rewrite `url.replace` with pattern `-thumb\.\w+$` and
replacement `'.$1'`.  The pattern matches a trailing
run of word characters preceded by the literal text `-thumb.`; the
replacement string `'.$1'` refers to capture group 1, but the pattern has
no capture groups, so ECMAScript substitutes the two characters `$1`
literally. -/
def thumbRewrite (url : List Char) : List Char :=
  let rev := url.reverse
  let ws := rev.takeWhile isWordClass
  let rest := rev.drop ws.length
  if ws ≠ [] ∧ ['.', 'b', 'm', 'u', 'h', 't', '-'].isPrefixOf rest then
    (rest.drop 7).reverse ++ ['.', '$', '1']
  else url

/-- The array pipeline of `normalizeImages`: keep truthy string entries,
canonicalize each URL, keep those that start with `http`. -/
def normalizeImagesArr (l : List (Option String)) : List String :=
  ((l.filterMap (fun e =>
          match e with
          | some s => if s = "" then none else some s.toList
          | none => none)).map (fun img =>
            let url := trimChars img
            let url := if ['/', '/'].isPrefixOf url then
                         'h' :: 't' :: 't' :: 'p' :: 's' :: ':' :: url
                       else url
            thumbRewrite url)).filterMap (fun url =>
        if ['h', 't', 't', 'p'].isPrefixOf url then some (String.mk url) else none)

/-- `normalizeImages` (src/normalize.js lines 226-243). -/
def normalizeImages (images : ImagesInput) : List String :=
  match images with
  | .inull => []
  | .istr s => normalizeImagesArr [some s]
  | .iarr l => normalizeImagesArr l

/-! ## `normalizeListingType`, `normalizePropertyType`
(src/normalize.js lines 280-299) -/

/-- The lower-cased text of a classifier input; `none` models
`null`/`undefined` (falsy, like the empty string). -/
def lowerChars (s : String) : List Char := s.toList.map jsLower

/-- `normalizeListingType` (src/normalize.js lines 280-286). -/
def normalizeListingType (type : Option String) : String :=
  match type with
  | none => "unknown"
  | some s =>
      if s = "" then "unknown"
      else
        let t := lowerChars s
        if containsSub t "sale".toList || containsSub t "buy".toList then "sale"
        else if containsSub t "rent".toList || containsSub t "let".toList then "rent"
        else "unknown"

/-- `normalizePropertyType` (src/normalize.js lines 291-299). -/
def normalizePropertyType (type : Option String) : String :=
  match type with
  | none => "unknown"
  | some s =>
      if s = "" then "unknown"
      else
        let t := lowerChars s
        if containsSub t "house".toList || containsSub t "villa".toList ||
           containsSub t "bungalow".toList || containsSub t "townhouse".toList then "house"
        else if containsSub t "apartment".toList || containsSub t "flat".toList ||
                containsSub t "studio".toList || containsSub t "bedsitter".toList then "apartment"
        else if containsSub t "land".toList || containsSub t "plot".toList then "land"
        else if containsSub t "commercial".toList || containsSub t "office".toList ||
                containsSub t "shop".toList || containsSub t "warehouse".toList then "commercial"
        else "other"

/-! ## SourceCrawler request handler state machine
(src/buyrentkenya.js lines 104-165 and src/jiji.js lines 307-370)

Both crawlers close over a result array `listings` and a counter
`listingCount`; the DETAIL branch of both request handlers is textually
identical (src/buyrentkenya.js lines 116-125, src/jiji.js lines 319-328):
at quota it returns without touching any state, otherwise it appends one
normalized listing and increments the counter.  The LIST branch touches
neither `listings` nor `listingCount`.  The extraction-plus-normalization
composite is abstracted as a function `f` from page payloads to records,
and the counter is modelled as an integer exactly as the JavaScript
number is only ever initialized to 0 and incremented. -/

structure CrawlerState (α : Type) where
  listings : List α
  listingCount : ℤ
deriving Repr

/-- A request as dispatched to the request handler: its label and the page
payload the handler sees. -/
inductive CrawlReq (π : Type) where
  | list (p : π) : CrawlReq π
  | detail (p : π) : CrawlReq π

/-- One invocation of the request handler, projected onto the shared
mutable state `(listings, listingCount)`. -/
def sourceCrawlerStep {π α : Type} (maxListings : ℕ) (f : π → α)
    (s : CrawlerState α) : CrawlReq π → CrawlerState α
  | .detail p =>
      if s.listingCount ≥ (maxListings : ℤ) then s
      else { listings := s.listings ++ [f p], listingCount := s.listingCount + 1 }
  | .list _ => s

/-- A sequential run of the request handler over a dispatch order of
requests, from the closure's initial state `([], 0)`. -/
def sourceCrawlerRun {π α : Type} (maxListings : ℕ) (f : π → α)
    (reqs : List (CrawlReq π)) : CrawlerState α :=
  reqs.foldl (sourceCrawlerStep maxListings f) { listings := [], listingCount := 0 }

/-! ## LIST-branch link collection
(src/buyrentkenya.js lines 126-151 and src/jiji.js lines 329-356) -/

/-- `href.startsWith('http') ? href : BASE_URL + href`. -/
def fullUrlOf (base href : List Char) : List Char :=
  if ['h', 't', 't', 'p'].isPrefixOf href then href else base ++ href

/-- The BuyRentKenya LIST-branch accumulation over the selected anchor
elements (src/buyrentkenya.js lines 131-138): each candidate href is
accepted when it is truthy, the raw href does not occur in the accumulated
array of absolute URLs, and the quota check passes; the absolute URL is
then pushed. -/
def collectLinksBRK (maxListings listingCount : ℕ)
    (hrefs : List (Option String)) : List (List Char) :=
  hrefs.foldl
    (fun acc h =>
      match h with
      | none => acc
      | some href =>
          if href ≠ "" ∧ href.toList ∉ acc ∧
             listingCount + acc.length < maxListings then
            acc ++ [fullUrlOf "https://www.buyrentkenya.com".toList href.toList]
          else acc)
    []

/-- The Jiji LIST-branch accumulation (src/jiji.js lines 334-343): as for
BuyRentKenya but the href must additionally contain `/item/`, and the
quota check is nested inside the dedup check. -/
def collectLinksJiji (maxListings listingCount : ℕ)
    (hrefs : List (Option String)) : List (List Char) :=
  hrefs.foldl
    (fun acc h =>
      match h with
      | none => acc
      | some href =>
          if href ≠ "" ∧ containsSub href.toList "/item/".toList ∧
             href.toList ∉ acc then
            if listingCount + acc.length < maxListings then
              acc ++ [fullUrlOf "https://jiji.co.ke".toList href.toList]
            else acc
          else acc)
    []

/-- The pagination condition of both LIST branches
(src/buyrentkenya.js line 146, src/jiji.js line 351): a next-page LIST
request is enqueued only when the budget is not exhausted. -/
def paginationEnqueued (maxListings listingCount : ℕ)
    (links : List (List Char)) : Bool :=
  listingCount + links.length < maxListings

/-! ## Orchestrator (src/main.js lines 11-14 and 48-107) -/

/-- The registered crawler factories (src/main.js lines 11-14). -/
inductive SourceId where
  | buyrentkenya : SourceId
  | jiji : SourceId
deriving DecidableEq, Repr

/-- The value the JS property lookup finds at a given key of the
`CRAWLERS` object literal (src/main.js lines 11-14).  A plain object
literal inherits from `Object.prototype`, so besides the two own keys
the bracket lookup also finds truthy inherited values; of the
`Object.prototype` member names exactly `constructor` (the `Object`
function) and `__proto__` (an accessor yielding `Object.prototype`) are
all-lowercase and hence reachable through `source.toLowerCase()`. -/
inductive CrawlerLookup where
  | own : SourceId → CrawlerLookup
  | inherited : CrawlerLookup
  | missing : CrawlerLookup
deriving DecidableEq, Repr

/-- `CRAWLERS[source.toLowerCase()]` (src/main.js line 52), including the
prototype-chain fallback of JS bracket lookup on an object literal. -/
def lookupCrawler (source : String) : CrawlerLookup :=
  let s := String.mk (source.toList.map jsLower)
  if s = "buyrentkenya" then .own .buyrentkenya
  else if s = "jiji" then .own .jiji
  else if s = "constructor" then .inherited
  else if s = "__proto__" then .inherited
  else .missing

/-- `Math.ceil(maxListings / sources.length)` (src/main.js line 65), for a
non-empty source list. -/
def perSourceQuota (maxListings n : ℕ) : ℕ := (maxListings + n - 1) / n

/-- The orchestrator source loop (src/main.js lines 51-84), threading the
accumulated listings; `none` models an exception escaping the loop.  An
own key runs that source's crawler under the per-source quota and appends
its listings (the crawler behaviour is abstracted by the request dispatch
order `reqs` and extraction function `f` of each source).  A missing key
fails the truthiness guard `if (!crawlerFactory)` and is skipped with a
warning (`continue`).  An inherited key passes that guard: for
`constructor` the factory value is the `Object` function, so
`crawlerFactory(config)` returns the plain config object and the call
`crawlerInstance.buildSearchUrl(...)` on line 70 throws a TypeError; for
`__proto__` the value `Object.prototype` is not callable and line 61
throws.  Either way the exception aborts the loop. -/
def mainLoop {π α : Type} (maxListings n : ℕ)
    (f : SourceId → π → α) (reqs : SourceId → List (CrawlReq π)) :
    List String → List α → Option (List α)
  | [], acc => some acc
  | source :: rest, acc =>
      match lookupCrawler source with
      | .own sid =>
          mainLoop maxListings n f reqs rest
            (acc ++ (sourceCrawlerRun (perSourceQuota maxListings n)
              (f sid) (reqs sid)).listings)
      | .missing => mainLoop maxListings n f reqs rest acc
      | .inherited => none

/-- The summary record written to the key-value store: src/main.js lines
95-107 on normal completion; lines 111-114 after an exception, where the
JS summary carries only `success: false` and the error message, so the
model zeroes the remaining fields on that path. -/
structure RunOutput (α : Type) where
  success : Bool
  totalListings : ℕ
  sources : List String
deriving Repr

/-- The orchestrator (src/main.js lines 48-115): run the source loop; on
normal completion push the concatenated listings and a `success: true`
summary; if the loop throws, nothing is pushed and the summary is
`success: false`. -/
def mainRun {π α : Type} (maxListings : ℕ) (sources : List String)
    (f : SourceId → π → α) (reqs : SourceId → List (CrawlReq π)) :
    List α × RunOutput α :=
  match mainLoop maxListings sources.length f reqs sources [] with
  | some allListings =>
      (allListings,
       { success := true, totalListings := allListings.length, sources := sources })
  | none => ([], { success := false, totalListings := 0, sources := sources })

/-! ## Canonical-phone machinery -/

/-- The canonical form asserted by the spec: `+254` followed by exactly
nine digits the first of which is 1 or 7. -/
def isCanonicalPhone (p : String) : Bool :=
  match p.toList with
  | '+' :: '2' :: '5' :: '4' :: d :: rest =>
      (d == '1' || d == '7') && (rest.length == 8) && rest.all Char.isDigit
  | _ => false

/-- The shape of every raw regex match: an optional-group alternative,
then a first digit 1 or 7, then eight digits. -/
def PhoneShape (m : List Char) : Prop :=
  ∃ g d t, g ∈ phoneGroupAlts ∧ (d = '1' ∨ d = '7') ∧ t.length = 8 ∧
    (∀ c ∈ t, c.isDigit = true) ∧ m = g ++ d :: t

lemma phoneTail_shape {g rest : List Char} {m after : List Char}
    (hg : g ∈ phoneGroupAlts) (h : phoneTail g rest = some (m, after)) :
    PhoneShape m := by
  cases rest with
  | nil => simp [phoneTail] at h
  | cons d tail =>
      simp only [phoneTail] at h
      split at h
      · rename_i hcond
        obtain ⟨hd, hlen, hall⟩ := hcond
        simp only [Option.some.injEq, Prod.mk.injEq] at h
        obtain ⟨rfl, rfl⟩ := h
        refine ⟨g, d, tail.take 8, hg, hd, ?_, ?_, rfl⟩
        · simp only [List.length_take]
          omega
        · intro c hc
          exact List.all_eq_true.mp hall c hc
      · cases h

lemma phoneMatchAt_shape {cs m after : List Char}
    (h : phoneMatchAt cs = some (m, after)) : PhoneShape m := by
  simp only [phoneMatchAt] at h
  obtain ⟨g, hgmem, hg⟩ := List.exists_of_findSome?_eq_some h
  split at hg
  · exact phoneTail_shape hgmem hg
  · cases hg

lemma phoneScanAux_shape : ∀ (fuel : ℕ) (cs : List Char) (m : List Char),
    m ∈ phoneScanAux fuel cs → PhoneShape m := by
  intro fuel
  induction fuel with
  | zero => intro cs m hm; simp [phoneScanAux] at hm
  | succ n ih =>
      intro cs m hm
      cases cs with
      | nil => simp [phoneScanAux] at hm
      | cons c rest =>
          simp only [phoneScanAux] at hm
          cases hmt : phoneMatchAt (c :: rest) with
          | some pr =>
              obtain ⟨m1, after⟩ := pr
              rw [hmt] at hm
              simp only [List.mem_cons] at hm
              rcases hm with rfl | hm
              · exact phoneMatchAt_shape hmt
              · exact ih after m hm
          | none =>
              rw [hmt] at hm
              exact ih rest m hm

/-- A digit character survives the per-match strip of `[\s\-()]`. -/
lemma keep_digit {c : Char} (h : c.isDigit = true) :
    (!(isWS c || c == '-' || c == '(' || c == ')')) = true := by
  have hws : isWS c = false := by
    cases hws : isWS c
    · rfl
    · simp only [isWS, Bool.or_eq_true, beq_iff_eq] at hws
      rcases hws with ((((rfl | rfl) | rfl) | rfl) | rfl) | rfl <;>
        exact absurd h (by decide)
  have h1 : (c == '-') = false := by
    cases hb : c == '-'
    · rfl
    · rw [show c = '-' from by simpa using hb] at h
      exact absurd h (by decide)
  have h2 : (c == '(') = false := by
    cases hb : c == '('
    · rfl
    · rw [show c = '(' from by simpa using hb] at h
      exact absurd h (by decide)
  have h3 : (c == ')') = false := by
    cases hb : c == ')'
    · rfl
    · rw [show c = ')' from by simpa using hb] at h
      exact absurd h (by decide)
  simp [hws, h1, h2, h3]

/-- Every raw match normalizes to the canonical `+254` form. -/
lemma normalizePhoneMatch_shape {m : List Char} (h : PhoneShape m) :
    ∃ d t, normalizePhoneMatch m = '+' :: '2' :: '5' :: '4' :: d :: t ∧
      (d = '1' ∨ d = '7') ∧ t.length = 8 ∧ (∀ c ∈ t, c.isDigit = true) := by
  obtain ⟨g, d, t, hg, hd, hlen, hall, rfl⟩ := h
  simp only [phoneGroupAlts, List.mem_cons, List.not_mem_nil, or_false] at hg
  have hfil : (g ++ d :: t).filter
      (fun c => !(isWS c || c == '-' || c == '(' || c == ')')) = g ++ d :: t := by
    rw [List.filter_eq_self]
    intro a ha
    rcases List.mem_append.mp ha with ha | ha
    · rcases hg with rfl | rfl | rfl | rfl <;> fin_cases ha <;> decide
    · rcases List.mem_cons.mp ha with rfl | ha
      · rcases hd with rfl | rfl <;> decide
      · exact keep_digit (hall a ha)
  refine ⟨d, t, ?_, hd, hlen, hall⟩
  rcases hg with rfl | rfl | rfl | rfl
  · simp only [normalizePhoneMatch]
    rw [hfil]
    simp [List.isPrefixOf]
  · simp only [normalizePhoneMatch]
    rw [hfil]
    simp [List.isPrefixOf]
  · simp only [normalizePhoneMatch]
    rw [hfil]
    simp [List.isPrefixOf]
  · simp only [normalizePhoneMatch]
    rw [hfil]
    rcases hd with rfl | rfl <;> simp [List.isPrefixOf]

/-- Invariant of the dedup-push fold: membership of a property and
freedom from duplicates. -/
lemma foldl_pushUnique_inv {α β : Type} [DecidableEq β] (P : β → Prop)
    (g : α → β) :
    ∀ (xs : List α) (acc : List β), (∀ b ∈ acc, P b) → acc.Nodup →
      (∀ x ∈ xs, P (g x)) →
      (∀ b ∈ xs.foldl (fun a x => pushUnique a (g x)) acc, P b) ∧
        (xs.foldl (fun a x => pushUnique a (g x)) acc).Nodup := by
  intro xs
  induction xs with
  | nil => intro acc h1 h2 _; exact ⟨h1, h2⟩
  | cons x rest ih =>
      intro acc h1 h2 h3
      simp only [List.foldl_cons]
      apply ih
      · intro b hb
        unfold pushUnique at hb
        by_cases hx : g x ∈ acc
        · rw [if_pos hx] at hb
          exact h1 b hb
        · rw [if_neg hx] at hb
          rcases List.mem_append.mp hb with hb | hb
          · exact h1 b hb
          · rcases List.mem_singleton.mp hb with rfl
            exact h3 x (List.mem_cons_self x rest)
      · unfold pushUnique
        by_cases hx : g x ∈ acc
        · rw [if_pos hx]; exact h2
        · rw [if_neg hx]
          simp [List.nodup_append, h2, hx]
      · intro y hy
        exact h3 y (List.mem_cons_of_mem x hy)

/-- Every phone entry produced by `extractPhoneNumbers` is canonical and
the output list has no duplicates. -/
lemma extractPhoneNumbers_inv (s : String) :
    (∀ p ∈ extractPhoneNumbers s, isCanonicalPhone p = true) ∧
      (extractPhoneNumbers s).Nodup := by
  unfold extractPhoneNumbers
  split
  · simp
  · apply foldl_pushUnique_inv (fun p => isCanonicalPhone p = true)
      (fun m => String.mk (normalizePhoneMatch m))
    · intro b hb; cases hb
    · exact List.nodup_nil
    · intro m hm
      obtain ⟨d, t, heq, hd, hlen, hall⟩ :=
        normalizePhoneMatch_shape (phoneScanAux_shape _ _ m hm)
      have htl : (String.mk (normalizePhoneMatch m)).toList = normalizePhoneMatch m := rfl
      simp only [isCanonicalPhone, htl, heq]
      rcases hd with rfl | rfl <;>
        (simp [hlen, List.all_eq_true]; exact hall)

/-! ## Location-resolution helpers -/

/-- A list whose first and last characters are not whitespace is fixed by
`trim`. -/
lemma trimChars_eq_self {l : List Char}
    (h1 : ∀ c, l.head? = some c → isWS c = false)
    (h2 : ∀ c, l.getLast? = some c → isWS c = false) : trimChars l = l := by
  cases l with
  | nil => rfl
  | cons c t =>
      have hc : isWS c = false := h1 c rfl
      have hfront : (c :: t).dropWhile isWS = c :: t := by
        simp [List.dropWhile_cons, hc]
      unfold trimChars
      rw [hfront]
      cases hr : (c :: t).reverse with
      | nil => exact absurd hr (by simp)
      | cons x xs =>
          have hx : (c :: t).getLast? = some x := by
            rw [← List.head?_reverse, hr]; rfl
          have hxw : isWS x = false := h2 x hx
          rw [List.dropWhile_cons, hxw]
          simp [← hr]

lemma replaceDelims_id {l : List Char}
    (h : ∀ c ∈ l, ¬(c = ',' ∨ c = '-' ∨ c = '/')) : replaceDelims l = l := by
  induction l with
  | nil => rfl
  | cons c t ih =>
      have ht := ih (fun x hx => h x (List.mem_cons_of_mem _ hx))
      simp only [replaceDelims, List.map_cons] at ht ⊢
      rw [if_neg (h c (List.mem_cons_self c t)), ht]

lemma splitComma_no_comma {b : List Char} (h : ∀ c ∈ b, ¬ c = ',') :
    splitComma b = [b] := by
  induction b with
  | nil => rfl
  | cons c t ih =>
      rw [splitComma, if_neg (h c (List.mem_cons_self c t)),
        ih (fun x hx => h x (List.mem_cons_of_mem _ hx))]

lemma splitComma_append {a : List Char} (b : List Char)
    (h : ∀ c ∈ a, ¬ c = ',') :
    splitComma (a ++ ',' :: b) = a :: splitComma b := by
  induction a with
  | nil => simp [splitComma]
  | cons c t ih =>
      have hiv := ih (fun x hx => h x (List.mem_cons_of_mem _ hx))
      rw [List.cons_append, splitComma, if_neg (h c (List.mem_cons_self c t)), hiv]

/-! ## Invariant helpers for the crawl state machine -/

/-- Quota invariant of the request handler, preserved from any state in
which the counter agrees with the result-list length and the quota holds. -/
theorem sourceCrawlerFold_inv {π α : Type} (maxL : ℕ) (f : π → α)
    (reqs : List (CrawlReq π)) (s : CrawlerState α)
    (h1 : s.listingCount = s.listings.length)
    (h2 : s.listings.length ≤ maxL) :
    (reqs.foldl (sourceCrawlerStep maxL f) s).listingCount =
      (reqs.foldl (sourceCrawlerStep maxL f) s).listings.length ∧
    (reqs.foldl (sourceCrawlerStep maxL f) s).listings.length ≤ maxL := by
  induction reqs generalizing s with
  | nil => exact ⟨h1, h2⟩
  | cons r rest ih =>
      simp only [List.foldl_cons]
      cases r with
      | list p => exact ih s h1 h2
      | detail p =>
          by_cases hc : s.listingCount ≥ (maxL : ℤ)
          · have hstep : sourceCrawlerStep maxL f s (.detail p) = s := by
              simp [sourceCrawlerStep, hc]
            rw [hstep]
            exact ih s h1 h2
          · have hstep : sourceCrawlerStep maxL f s (.detail p) =
                { listings := s.listings ++ [f p], listingCount := s.listingCount + 1 } := by
              simp [sourceCrawlerStep, hc]
            rw [hstep]
            refine ih _ ?_ ?_
            · simp [h1]
            · have hlt : (s.listings.length : ℤ) < (maxL : ℤ) := by
                rw [← h1]; omega
              simp only [List.length_append, List.length_singleton]
              omega

theorem sourceCrawlerRun_length_le {π α : Type} (maxL : ℕ) (f : π → α)
    (reqs : List (CrawlReq π)) :
    (sourceCrawlerRun maxL f reqs).listings.length ≤ maxL :=
  (sourceCrawlerFold_inv maxL f reqs { listings := [], listingCount := 0 }
    (by simp) (by simp)).2

/-! ## Price-grammar machinery for C2

The claim quantifies over price strings of the shape
`{optional currency marker}{digits with thousands separators}{optional K or
M suffix}`; the grammar below renders exactly these strings (with an
optional decimal fraction, as in the quoted example `2.5M`). -/

inductive PriceMarker where
  | bare | kesM | kshM | shM | usdM | dollarM
deriving DecidableEq, Repr

def markerChars : PriceMarker → List Char
  | .bare => []
  | .kesM => ['K', 'E', 'S', ' ']
  | .kshM => ['K', 'S', 'H', ' ']
  | .shM => ['S', 'H', ' ']
  | .usdM => ['U', 'S', 'D', ' ']
  | .dollarM => ['$']

/-- The source currency the code detects for each marker. -/
def markerCurrency : PriceMarker → String
  | .usdM => "USD"
  | .dollarM => "USD"
  | _ => "KES"

inductive PriceSuffix where
  | noSuf | kSuf | mSuf
deriving DecidableEq, Repr

def suffixChars : PriceSuffix → List Char
  | .noSuf => []
  | .kSuf => ['K']
  | .mSuf => ['M']

def suffixMult : PriceSuffix → ℚ
  | .noSuf => 1
  | .kSuf => 1000
  | .mSuf => 1000000

def fracChars : Option (List Char) → List Char
  | none => []
  | some fs => '.' :: fs

/-- The rendered price string of the claim's grammar. -/
def renderPrice (m : PriceMarker) (g : List Char) (frac : Option (List Char))
    (suf : PriceSuffix) : List Char :=
  markerChars m ++ g ++ fracChars frac ++ suffixChars suf

def fracVal : Option (List Char) → ℚ
  | none => 0
  | some fs => (natVal fs : ℚ) / (10 : ℚ) ^ fs.length

/-- The numeric value the rendered string denotes. -/
def denotedValue (ds : List Char) (frac : Option (List Char))
    (suf : PriceSuffix) : ℚ :=
  ((natVal ds : ℚ) + fracVal frac) * suffixMult suf

/-! Character-class facts. -/

lemma digit_ne {c d : Char} (h : c.isDigit = true) (hd : d.isDigit = false) :
    c ≠ d := by
  intro e
  rw [e, hd] at h
  cases h

lemma isWS_digit_false {c : Char} (h : c.isDigit = true) : isWS c = false := by
  cases hws : isWS c
  · rfl
  · simp only [isWS, Bool.or_eq_true, beq_iff_eq] at hws
    rcases hws with ((((rfl | rfl) | rfl) | rfl) | rfl) | rfl <;>
      exact absurd h (by decide)

lemma jsUpper_digit {c : Char} (h : c.isDigit = true) : jsUpper c = c := by
  unfold jsUpper
  rw [if_neg]
  rintro ⟨h1, h2⟩
  simp only [Char.isDigit, Bool.and_eq_true, decide_eq_true_eq] at h
  exact absurd (le_trans h1 (show c ≤ '9' from h.2)) (by decide)

lemma map_id_on {α : Type} (f : α → α) :
    ∀ l : List α, (∀ c ∈ l, f c = c) → l.map f = l := by
  intro l
  induction l with
  | nil => intro _; rfl
  | cons c t ih =>
      intro h
      rw [List.map_cons, h c (List.mem_cons_self c t),
        ih (fun x hx => h x (List.mem_cons_of_mem _ hx))]

/-! Stripping lemmas. -/

lemma stripKES_cons_other {c : Char} {rest : List Char}
    (h1 : c ≠ 'K') (h2 : c ≠ 'S') (h3 : c ≠ '/') :
    stripKES (c :: rest) = c :: stripKES rest := by
  rw [stripKES.eq_def]
  split
  all_goals
    first
      | rfl
      | (rename_i heq
         first
           | (injection heq with hc hr
              first
                | (subst hc; subst hr; rfl)
                | exact absurd hc h1
                | exact absurd hc h2
                | exact absurd hc h3)
           | injection heq)

lemma stripKES_eq_self {l : List Char}
    (h : ∀ c ∈ l, c ≠ 'K' ∧ c ≠ 'S' ∧ c ≠ '/') : stripKES l = l := by
  induction l with
  | nil => rfl
  | cons c t ih =>
      obtain ⟨h1, h2, h3⟩ := h c (List.mem_cons_self c t)
      rw [stripKES_cons_other h1 h2 h3,
        ih (fun x hx => h x (List.mem_cons_of_mem _ hx))]

lemma stripKES_append_last {l : List Char} (x : Char)
    (h : ∀ c ∈ l, c ≠ 'K' ∧ c ≠ 'S' ∧ c ≠ '/') (hx : stripKES [x] = [x]) :
    stripKES (l ++ [x]) = l ++ [x] := by
  induction l with
  | nil => simpa using hx
  | cons c t ih =>
      obtain ⟨h1, h2, h3⟩ := h c (List.mem_cons_self c t)
      rw [List.cons_append, stripKES_cons_other h1 h2 h3,
        ih (fun y hy => h y (List.mem_cons_of_mem _ hy))]

lemma stripUSD_cons_other {c : Char} {rest : List Char}
    (h1 : c ≠ 'U') (h2 : c ≠ '$') :
    stripUSD (c :: rest) = (c :: (stripUSD rest).1, (stripUSD rest).2) := by
  rw [stripUSD.eq_def]
  split
  all_goals
    first
      | rfl
      | (rename_i heq
         first
           | (injection heq with hc hr
              first
                | (subst hc; subst hr; rfl)
                | exact absurd hc h1
                | exact absurd hc h2)
           | injection heq)

lemma stripUSD_eq_self {l : List Char}
    (h : ∀ c ∈ l, c ≠ 'U' ∧ c ≠ '$') : stripUSD l = (l, false) := by
  induction l with
  | nil => rfl
  | cons c t ih =>
      obtain ⟨h1, h2⟩ := h c (List.mem_cons_self c t)
      rw [stripUSD_cons_other h1 h2,
        ih (fun x hx => h x (List.mem_cons_of_mem _ hx))]

/-! Further C2 helpers: separator filtering, runs, containment. -/

lemma digit_keep_sep {c : Char} (h : c.isDigit = true) :
    (!(c == ',' || isWS c)) = true := by
  have h1 : (c == ',') = false := by
    cases hb : c == ','
    · rfl
    · rw [show c = ',' from by simpa using hb] at h
      exact absurd h (by decide)
  simp [h1, isWS_digit_false h]

lemma filter_sep_eq_filter_digit {g : List Char}
    (hg : ∀ c ∈ g, c.isDigit = true ∨ c = ',') :
    g.filter (fun c => !(c == ',' || isWS c)) = g.filter Char.isDigit := by
  induction g with
  | nil => rfl
  | cons c t ih =>
      have ht := ih (fun x hx => hg x (List.mem_cons_of_mem _ hx))
      rcases hg c (List.mem_cons_self c t) with hd | rfl
      · rw [List.filter_cons, List.filter_cons, if_pos (by simp [digit_keep_sep hd]),
          if_pos (by simp [hd]), ht]
      · rw [List.filter_cons, List.filter_cons, if_neg (by decide),
          if_neg (by decide), ht]

lemma takeWhile_all {p : Char → Bool} {l : List Char}
    (h : ∀ c ∈ l, p c = true) : l.takeWhile p = l := by
  induction l with
  | nil => rfl
  | cons c t ih =>
      rw [List.takeWhile_cons, h c (List.mem_cons_self c t)]
      simp [ih fun x hx => h x (List.mem_cons_of_mem _ hx)]

lemma contains_false_of {l : List Char} {x : Char}
    (h : ∀ c ∈ l, c ≠ x) : l.contains x = false := by
  cases hb : l.contains x
  · rfl
  · have hx : x ∈ l := by
      have := List.mem_of_elem_eq_true hb
      exact this
    exact absurd rfl (h x hx)

lemma contains_true_of_mem {l : List Char} {x : Char}
    (h : x ∈ l) : l.contains x = true :=
  List.elem_eq_true_of_mem h

/-- The currency-marker text after separator filtering. -/
def markerCore : PriceMarker → List Char
  | .bare => []
  | .kesM => ['K', 'E', 'S']
  | .kshM => ['K', 'S', 'H']
  | .shM => ['S', 'H']
  | .usdM => ['U', 'S', 'D']
  | .dollarM => ['$']

/-- Whether the USD-marker replacement callback fires for this marker. -/
def markerUSDflag : PriceMarker → Bool
  | .usdM => true
  | .dollarM => true
  | _ => false

/-- The two currency-stripping passes over marker-core plus a token-free
tail: the KES-class tokens of the marker disappear, the USD tokens
disappear and raise the flag, the tail passes through unchanged. -/
lemma strip_marker (m : PriceMarker) (t : List Char)
    (h1 : stripKES t = t) (h2 : stripUSD t = (t, false)) :
    stripUSD (stripKES (markerCore m ++ t)) = (t, markerUSDflag m) := by
  cases m
  · simpa [markerCore, markerUSDflag, h1] using h2
  · simp [markerCore, markerUSDflag, stripKES, h1, h2]
  · simp [markerCore, markerUSDflag, stripKES, h1, h2]
  · simp [markerCore, markerUSDflag, stripKES, h1, h2]
  · simp [markerCore, markerUSDflag, stripKES, stripUSD, h1, h2]
  · simp [markerCore, markerUSDflag, stripKES, stripUSD, h1, h2]

/-- Last-character analysis of `pre ++ fracChars frac ++ suffixChars suf`:
it is never whitespace when `pre` ends in non-whitespace and the fraction
digits are digits. -/
lemma getLast?_grammar_nonWS {pre : List Char} {frac : Option (List Char)}
    {suf : PriceSuffix}
    (hpre : ∀ c, pre.getLast? = some c → isWS c = false)
    (hfrac : ∀ fs, frac = some fs → fs ≠ [] ∧ ∀ c ∈ fs, c.isDigit = true) :
    ∀ c, (pre ++ fracChars frac ++ suffixChars suf).getLast? = some c →
      isWS c = false := by
  intro c hc
  cases suf with
  | kSuf =>
      rw [show suffixChars .kSuf = ['K'] from rfl, List.getLast?_concat] at hc
      injection hc with hc
      subst hc
      decide
  | mSuf =>
      rw [show suffixChars .mSuf = ['M'] from rfl, List.getLast?_concat] at hc
      injection hc with hc
      subst hc
      decide
  | noSuf =>
      rw [show suffixChars .noSuf = [] from rfl, List.append_nil] at hc
      cases frac with
      | none =>
          rw [show fracChars none = [] from rfl, List.append_nil] at hc
          exact hpre c hc
      | some fs =>
          obtain ⟨hfs_ne, hfs_dig⟩ := hfrac fs rfl
          obtain ⟨y, hy⟩ : ∃ y, fs.getLast? = some y := by
            cases hfy : fs.getLast? with
            | none => exact absurd (List.getLast?_eq_none_iff.mp hfy) hfs_ne
            | some y => exact ⟨y, rfl⟩
          have h2 : (fracChars (some fs)).getLast? = some y := by
            show ('.' :: fs).getLast? = some y
            rw [show '.' :: fs = ['.'] ++ fs from rfl, List.getLast?_append, hy]
            rfl
          rw [List.getLast?_append, h2] at hc
          simp only [Option.or] at hc
          injection hc with hc
          subst hc
          exact isWS_digit_false (hfs_dig y (List.mem_of_getLast?_eq_some hy))

/-! ## Claims -/

/-- C1: for both SourceCrawlers (the BuyRentKenya and Jiji request handlers
share this state machine), over any sequential dispatch order of LIST and
DETAIL requests, the result list never exceeds `maxListings`; the counter
always equals the result-list length and is never negative; a DETAIL
request at quota is a no-op on the shared state; and the counter is
non-decreasing at every step. -/
theorem claim_C1 {π α : Type} (maxL : ℕ) (f : π → α) (reqs : List (CrawlReq π)) :
    (sourceCrawlerRun maxL f reqs).listings.length ≤ maxL ∧
    (sourceCrawlerRun maxL f reqs).listingCount =
      (sourceCrawlerRun maxL f reqs).listings.length ∧
    0 ≤ (sourceCrawlerRun maxL f reqs).listingCount ∧
    (∀ (s : CrawlerState α) (p : π), (maxL : ℤ) ≤ s.listingCount →
        sourceCrawlerStep maxL f s (.detail p) = s) ∧
    (∀ (s : CrawlerState α) (r : CrawlReq π),
        s.listingCount ≤ (sourceCrawlerStep maxL f s r).listingCount) := by
  unfold sourceCrawlerRun
  have hinv := sourceCrawlerFold_inv maxL f reqs { listings := [], listingCount := 0 }
    (by simp) (by simp)
  refine ⟨hinv.2, hinv.1, ?_, ?_, ?_⟩
  · rw [hinv.1]; exact Int.natCast_nonneg _
  · intro s p h
    simp [sourceCrawlerStep, ge_iff_le, h]
  · intro s r
    cases r with
    | list p => simp [sourceCrawlerStep]
    | detail p =>
        by_cases hc : s.listingCount ≥ (maxL : ℤ)
        · simp [sourceCrawlerStep, hc]
        · simp only [sourceCrawlerStep, hc, if_false, ite_false]
          omega

/-- Witness for C1 at a concrete dispatch order: three DETAIL requests
under quota 2 collect exactly 2 listings, and a DETAIL step at quota is the
identity. -/
theorem claim_C1_witness :
    (sourceCrawlerRun 2 (fun p : ℕ => p) [.detail 10, .detail 20, .detail 30]).listings.length ≤ 2 ∧
    sourceCrawlerStep 2 (fun p : ℕ => p)
      { listings := [10, 20], listingCount := 2 } (.detail 30) =
      { listings := [10, 20], listingCount := 2 } := by
  have h := claim_C1 2 (fun p : ℕ => p) [.detail 10, .detail 20, .detail 30]
  exact ⟨h.1, h.2.2.2.1 { listings := [10, 20], listingCount := 2 } 30 (by decide)⟩

/-- `Math.round` of an integer is that integer. -/
lemma jsRound_intCast (z : ℤ) : jsRound ((z : ℚ)) = z := by
  simp only [jsRound, Rat.num_intCast, Rat.den_intCast]
  rw [Int.fdiv_eq_ediv _ (by norm_num)]
  push_cast
  omega

lemma normalizePrice_usd1000 :
    normalizePrice (.pstr "$1000") "KES" =
      { amount := .num 156250, currency := "KES", original := some "$1000" } := by
  simp [normalizePrice, PriceInput.falsy, PriceInput.chars, trimChars, isWS,
    jsUpper, stripKES, stripUSD, firstNumRun, isNumClass, parseFloatRun, natVal,
    applyConversion, convertAmount, KES_TO_USD_RATE, USD_TO_KES_RATE,
    String.toList]
  rw [show (1000 * (15625 / 100) : ℚ) = ((156250 : ℤ) : ℚ) from by norm_num,
    jsRound_intCast]
  norm_num

lemma normalizePrice_kes156250 :
    normalizePrice (.pstr "KES 156250") "USD" =
      { amount := .num 1000, currency := "USD", original := some "KES 156250" } := by
  simp [normalizePrice, PriceInput.falsy, PriceInput.chars, trimChars, isWS,
    jsUpper, stripKES, stripUSD, firstNumRun, isNumClass, parseFloatRun, natVal,
    applyConversion, convertAmount, KES_TO_USD_RATE, USD_TO_KES_RATE,
    String.toList]
  rw [show (156250 * (64 / 10000) * 100 : ℚ) = ((100000 : ℤ) : ℚ) from by norm_num,
    jsRound_intCast]
  norm_num

set_option maxHeartbeats 2000000 in
/-- C2: for every price string of the claim's grammar (optional currency
marker, digits with thousands separators and an optional decimal fraction,
optional K or M suffix) with the target currency equal to the detected
source currency, `normalizePrice` returns exactly the denoted numeric
value: separators and currency tokens are stripped, the first maximal
numeric run is the base amount, a trailing M multiplies by 1,000,000, else
a trailing K by 1,000, and the original text is preserved. -/
theorem claim_C2 (m : PriceMarker) (g ds : List Char) (frac : Option (List Char))
    (suf : PriceSuffix)
    (hds : ds ≠ [])
    (hg : ∀ c ∈ g, c.isDigit = true ∨ c = ',')
    (hfilter : g.filter Char.isDigit = ds)
    (hfrac : ∀ fs, frac = some fs → fs ≠ [] ∧ ∀ c ∈ fs, c.isDigit = true) :
    normalizePrice (.pstr (String.mk (renderPrice m g frac suf))) (markerCurrency m) =
      { amount := .num (denotedValue ds frac suf),
        currency := markerCurrency m,
        original := some (String.mk (renderPrice m g frac suf)) } := by
  have hds_digit : ∀ c ∈ ds, c.isDigit = true := by
    intro c hc
    rw [← hfilter] at hc
    exact (List.mem_filter.mp hc).2
  have hg_ne : g ≠ [] := by
    intro h
    rw [h] at hfilter
    exact hds hfilter.symm
  obtain ⟨g0, g1, rfl⟩ := List.exists_cons_of_ne_nil hg_ne
  obtain ⟨d0, ds1, hds_eq⟩ := List.exists_cons_of_ne_nil hds
  have hd0 : d0.isDigit = true := hds_digit d0 (by rw [hds_eq]; exact List.mem_cons_self _ _)
  have hbody : ∀ c ∈ ds ++ fracChars frac, c.isDigit = true ∨ c = '.' := by
    intro c hc
    rcases List.mem_append.mp hc with hc | hc
    · exact Or.inl (hds_digit c hc)
    · cases frac with
      | none => simp [fracChars] at hc
      | some fs =>
          rcases List.mem_cons.mp hc with rfl | hc
          · exact Or.inr rfl
          · exact Or.inl ((hfrac fs rfl).2 c hc)
  have hbodyK : ∀ c ∈ ds ++ fracChars frac, c ≠ 'K' ∧ c ≠ 'S' ∧ c ≠ '/' := by
    intro c hc
    rcases hbody c hc with hd | rfl
    · exact ⟨digit_ne hd (by decide), digit_ne hd (by decide), digit_ne hd (by decide)⟩
    · exact ⟨by decide, by decide, by decide⟩
  have hKES_tail : stripKES (ds ++ fracChars frac ++ suffixChars suf) =
      ds ++ fracChars frac ++ suffixChars suf := by
    cases suf with
    | noSuf =>
        rw [show suffixChars .noSuf = [] from rfl, List.append_nil]
        exact stripKES_eq_self hbodyK
    | kSuf => exact stripKES_append_last 'K' hbodyK (by decide)
    | mSuf => exact stripKES_append_last 'M' hbodyK (by decide)
  have htailU : ∀ c ∈ ds ++ fracChars frac ++ suffixChars suf, c ≠ 'U' ∧ c ≠ '$' := by
    intro c hc
    rcases List.mem_append.mp hc with hc | hc
    · rcases hbody c hc with hd | rfl
      · exact ⟨digit_ne hd (by decide), digit_ne hd (by decide)⟩
      · exact ⟨by decide, by decide⟩
    · cases suf with
      | noSuf => simp [suffixChars] at hc
      | kSuf =>
          rw [show suffixChars .kSuf = ['K'] from rfl, List.mem_singleton] at hc
          subst hc
          exact ⟨by decide, by decide⟩
      | mSuf =>
          rw [show suffixChars .mSuf = ['M'] from rfl, List.mem_singleton] at hc
          subst hc
          exact ⟨by decide, by decide⟩
  have hUSD_tail := stripUSD_eq_self htailU
  have hlast_ds : ∀ c, ds.getLast? = some c → isWS c = false := fun c hc =>
    isWS_digit_false (hds_digit c (List.mem_of_getLast?_eq_some hc))
  have hcleaned : trimChars (ds ++ fracChars frac ++ suffixChars suf) =
      ds ++ fracChars frac ++ suffixChars suf := by
    apply trimChars_eq_self
    · intro c hc
      rw [hds_eq] at hc
      simp only [List.cons_append, List.head?_cons, Option.some.injEq] at hc
      subst hc
      exact isWS_digit_false hd0
    · exact getLast?_grammar_nonWS hlast_ds hfrac
  have hlast_mg : ∀ c, (markerChars m ++ (g0 :: g1)).getLast? = some c → isWS c = false := by
    intro c hc
    obtain ⟨y, hy⟩ : ∃ y, (g0 :: g1).getLast? = some y := by
      cases hgy : (g0 :: g1).getLast? with
      | none => exact absurd (List.getLast?_eq_none_iff.mp hgy) (by simp)
      | some y => exact ⟨y, rfl⟩
    rw [List.getLast?_append, hy] at hc
    simp only [Option.or] at hc
    injection hc with hc
    subst hc
    rcases hg y (List.mem_of_getLast?_eq_some hy) with hd | rfl
    · exact isWS_digit_false hd
    · decide
  have htrim_render : trimChars (renderPrice m (g0 :: g1) frac suf) =
      renderPrice m (g0 :: g1) frac suf := by
    apply trimChars_eq_self
    · intro c hc
      cases m <;>
        simp only [renderPrice, markerChars, List.cons_append, List.nil_append,
          List.head?_cons, Option.some.injEq] at hc <;>
        first
          | (subst hc; decide)
          | (subst hc
             rcases hg g0 (List.mem_cons_self g0 g1) with hd | rfl
             · exact isWS_digit_false hd
             · decide)
    · exact getLast?_grammar_nonWS hlast_mg hfrac
  have hrender_ne : renderPrice m (g0 :: g1) frac suf ≠ [] := by
    cases m <;> simp [renderPrice, markerChars]
  have hfalsy : (PriceInput.pstr (String.mk (renderPrice m (g0 :: g1) frac suf))).falsy = false := by
    simp only [PriceInput.falsy, decide_eq_false_iff_not]
    intro h
    exact hrender_ne (congrArg String.toList h)
  have hfilt_g : (g0 :: g1).filter (fun c => !(c == ',' || isWS c)) = ds :=
    (filter_sep_eq_filter_digit hg).trans hfilter
  have hfilt_frac : (fracChars frac).filter (fun c => !(c == ',' || isWS c)) = fracChars frac := by
    cases frac with
    | none => rfl
    | some fs =>
        obtain ⟨-, hfs_dig⟩ := hfrac fs rfl
        show ('.' :: fs).filter _ = '.' :: fs
        rw [List.filter_cons, if_pos (by decide)]
        congr 1
        rw [List.filter_eq_self]
        intro a ha
        exact digit_keep_sep (hfs_dig a ha)
  have hfilt_suf : (suffixChars suf).filter (fun c => !(c == ',' || isWS c)) = suffixChars suf := by
    cases suf <;> decide
  have hfilt_marker : (markerChars m).filter (fun c => !(c == ',' || isWS c)) = markerCore m := by
    cases m <;> decide
  have hfiltall : (renderPrice m (g0 :: g1) frac suf).filter (fun c => !(c == ',' || isWS c)) =
      markerCore m ++ (ds ++ fracChars frac ++ suffixChars suf) := by
    simp only [renderPrice, List.filter_append, hfilt_g, hfilt_frac, hfilt_suf,
      hfilt_marker, List.append_assoc]
  have hupper : (renderPrice m (g0 :: g1) frac suf).map jsUpper =
      renderPrice m (g0 :: g1) frac suf := by
    apply map_id_on
    intro c hc
    simp only [renderPrice, List.append_assoc, List.mem_append] at hc
    rcases hc with hc | hc | hc | hc
    · cases m with
      | bare => simp [markerChars] at hc
      | kesM => fin_cases hc <;> decide
      | kshM => fin_cases hc <;> decide
      | shM => fin_cases hc <;> decide
      | usdM => fin_cases hc <;> decide
      | dollarM => fin_cases hc; decide
    · rcases hg c hc with hd | rfl
      · exact jsUpper_digit hd
      · decide
    · cases frac with
      | none => simp [fracChars] at hc
      | some fs =>
          rcases List.mem_cons.mp hc with rfl | hc
          · decide
          · exact jsUpper_digit ((hfrac fs rfl).2 c hc)
    · cases suf with
      | noSuf => simp [suffixChars] at hc
      | kSuf =>
          rw [show suffixChars .kSuf = ['K'] from rfl, List.mem_singleton] at hc
          subst hc
          decide
      | mSuf =>
          rw [show suffixChars .mSuf = ['M'] from rfl, List.mem_singleton] at hc
          subst hc
          decide
  have hnumall : ∀ c ∈ ds ++ fracChars frac, isNumClass c = true := by
    intro c hc
    rcases hbody c hc with hd | rfl
    · simp [isNumClass, hd]
    · decide
  have htw : (ds ++ fracChars frac ++ suffixChars suf).takeWhile isNumClass =
      ds ++ fracChars frac := by
    rw [List.takeWhile_append_of_pos hnumall]
    cases suf with
    | noSuf => simp [suffixChars]
    | kSuf =>
        rw [show (suffixChars .kSuf).takeWhile isNumClass = [] from rfl, List.append_nil]
    | mSuf =>
        rw [show (suffixChars .mSuf).takeWhile isNumClass = [] from rfl, List.append_nil]
  have hrun : firstNumRun (ds ++ fracChars frac ++ suffixChars suf) =
      some (ds ++ fracChars frac) := by
    rw [hds_eq] at htw ⊢
    simp only [List.cons_append] at htw ⊢
    rw [firstNumRun, if_pos (by simp [isNumClass, hd0])]
    exact congrArg some htw
  have hparse : parseFloatRun (ds ++ fracChars frac) =
      some ((natVal ds : ℚ) + fracVal frac) := by
    cases frac with
    | none =>
        simp only [fracChars, List.append_nil, parseFloatRun]
        rw [takeWhile_all hds_digit, List.drop_length]
        simp [hds, fracVal]
    | some fs =>
        obtain ⟨hfs_ne, hfs_dig⟩ := hfrac fs rfl
        simp only [fracChars, parseFloatRun]
        rw [List.takeWhile_append_of_pos hds_digit,
          show ('.' :: fs).takeWhile Char.isDigit = [] from rfl, List.append_nil,
          List.drop_left]
        simp [takeWhile_all hfs_dig, fracVal, hds]
  have hstrip := strip_marker m (ds ++ fracChars frac ++ suffixChars suf) hKES_tail hUSD_tail
  have hcur : (if markerUSDflag m then "USD" else "KES") = markerCurrency m := by
    cases m <;> rfl
  simp only [normalizePrice, hfalsy, Bool.false_eq_true, if_false, PriceInput.chars,
    String.toList]
  simp only [htrim_render, hupper, hfiltall, hstrip, hcleaned, hcur, hrun, hparse]
  have hnotMem : ∀ x : Char, x.isDigit = false → x ≠ '.' →
      x ∉ ds ∧ x ∉ fracChars frac := by
    intro x hx hdot
    constructor
    · intro h
      rw [hds_digit x h] at hx
      cases hx
    · intro h
      rcases hbody x (List.mem_append.mpr (Or.inr h)) with hd | hdd
      · rw [hd] at hx; cases hx
      · exact hdot hdd
  obtain ⟨hMds, hMfr⟩ := hnotMem 'M' (by decide) (by decide)
  obtain ⟨hKds, hKfr⟩ := hnotMem 'K' (by decide) (by decide)
  cases suf with
  | noSuf =>
      simp [suffixChars, hMds, hMfr, hKds, hKfr, applyConversion, denotedValue,
        suffixMult]
  | kSuf =>
      simp [suffixChars, hMds, hMfr, hKds, hKfr, applyConversion, denotedValue,
        suffixMult]
  | mSuf =>
      simp [suffixChars, hMds, hMfr, hKds, hKfr, applyConversion, denotedValue,
        suffixMult]

theorem claim_C2_witness :
    normalizePrice (.pstr "KES 5,000,000") "KES" =
      { amount := .num 5000000, currency := "KES", original := some "KES 5,000,000" } ∧
    normalizePrice (.pstr "500K") "KES" =
      { amount := .num 500000, currency := "KES", original := some "500K" } ∧
    normalizePrice (.pstr "2.5M") "KES" =
      { amount := .num 2500000, currency := "KES", original := some "2.5M" } := by
  refine ⟨?_, ?_, ?_⟩
  · have h := claim_C2 .kesM "5,000,000".toList "5000000".toList none .noSuf
      (by decide) (by decide) (by decide) (fun fs hfs => by cases hfs)
    have h2 : denotedValue "5000000".toList none .noSuf = 5000000 := by
      rw [denotedValue, fracVal, show natVal "5000000".toList = 5000000 from rfl]
      norm_num [suffixMult]
    rw [h2] at h
    exact h
  · have h := claim_C2 .bare "500".toList "500".toList none .kSuf
      (by decide) (by decide) (by decide) (fun fs hfs => by cases hfs)
    have h2 : denotedValue "500".toList none .kSuf = 500000 := by
      rw [denotedValue, fracVal, show natVal "500".toList = 500 from rfl]
      norm_num [suffixMult]
    rw [h2] at h
    exact h
  · have h := claim_C2 .bare "2".toList "2".toList (some "5".toList) .mSuf
      (by decide) (by decide) (by decide)
      (fun fs hfs => by cases hfs; exact ⟨by decide, by decide⟩)
    have h2 : denotedValue "2".toList (some "5".toList) .mSuf = 2500000 := by
      rw [denotedValue, fracVal, show natVal "2".toList = 2 from rfl,
        show natVal "5".toList = 5 from rfl]
      norm_num [suffixMult]
    rw [h2] at h
    exact h

/-- C3: currency conversion is a pure function of the parsed amount and the
fixed rate constants: USD to KES multiplies by 156.25 and rounds to the
nearest integer, KES to USD multiplies by 0.0064 and rounds to 2 decimals;
it applies only when the source and target currencies differ and the amount
is non-null; and the two quoted evaluations hold. -/
theorem claim_C3 :
    (∀ a : ℚ, convertAmount "USD" "KES" a = (jsRound (a * (156.25 : ℚ)) : ℚ)) ∧
    (∀ a : ℚ, convertAmount "KES" "USD" a = (jsRound (a * (0.0064 : ℚ) * 100) : ℚ) / 100) ∧
    (∀ (src : String) (amt : JsAmount), applyConversion src src amt = amt) ∧
    (∀ src tgt : String, applyConversion src tgt .null = .null) ∧
    (normalizePrice (.pstr "$1000") "KES").amount = .num 156250 ∧
    (normalizePrice (.pstr "KES 156250") "USD").amount = .num 1000 := by
  refine ⟨?_, ?_, ?_, ?_, ?_, ?_⟩
  · intro a
    have : (156.25 : ℚ) = USD_TO_KES_RATE := by norm_num [USD_TO_KES_RATE]
    simp [convertAmount, this]
  · intro a
    have : (0.0064 : ℚ) = KES_TO_USD_RATE := by norm_num [KES_TO_USD_RATE]
    simp [convertAmount, this]
  · intro src amt
    cases amt <;> simp [applyConversion]
  · intro src tgt
    simp [applyConversion]
  · rw [normalizePrice_usd1000]
  · rw [normalizePrice_kes156250]

/-- C4 (counterexample to the claim as stated): the input
`"Nairobi West, Mombasa"` has the form `"<area>, <City>"` with `<City>`
containing the gazetteer city Mombasa, yet the code resolves the city from
the area segment first and returns Nairobi, not Mombasa. -/
theorem claim_C4_counterexample :
    normalizeLocation (some "Nairobi West, Mombasa") =
      { area := some "Nairobi West", city := some "Nairobi",
        region := some "Nairobi", original := some "Nairobi West, Mombasa" } ∧
    (normalizeLocation (some "Nairobi West, Mombasa")).city ≠ some "Mombasa" ∧
    (normalizeLocation (some "Nairobi West, Mombasa")).region ≠ some "Coast" := by
  refine ⟨by decide, by decide, by decide⟩

/-- C4 (amended): segments are scanned left to right starting with the
area, so for `"<area><delim><City>"` inputs whose area segment matches no
gazetteer city while `<City>` does, the area is the first trimmed segment,
the city is the capitalized gazetteer form found in `<City>`, and the
region is its fixed mapping; for inputs in which no segment matches a
gazetteer city, city and region are null while area is still the first
trimmed segment; and region is non-null only if city is non-null. -/
theorem claim_C4 :
    (∀ (a b : List Char) (d : Char) (kc : List Char),
        (d = ',' ∨ d = '-' ∨ d = '/') →
        (∀ c ∈ a, ¬(c = ',' ∨ c = '-' ∨ c = '/')) →
        (∀ c ∈ b, ¬(c = ',' ∨ c = '-' ∨ c = '/')) →
        (∀ c, a.head? = some c → isWS c = false) →
        (∀ c, b.getLast? = some c → isWS c = false) →
        trimChars a ≠ [] → trimChars b ≠ [] →
        findCityInPart (trimChars a) = none →
        findCityInPart (trimChars b) = some kc →
        normalizeLocation (some (String.mk (a ++ d :: b))) =
          { area := some (String.mk (trimChars a)),
            city := some (String.mk (capitalizeCity kc)),
            region := regionOf kc,
            original := some (String.mk (a ++ d :: b)) }) ∧
    (∀ s : String, s ≠ "" →
        (∀ p ∈ locationParts (trimChars s.toList), findCityInPart p = none) →
        (normalizeLocation (some s)).city = none ∧
        (normalizeLocation (some s)).region = none ∧
        (normalizeLocation (some s)).area =
          ((locationParts (trimChars s.toList)).head?).map String.mk) ∧
    (∀ s : Option String, (normalizeLocation s).region ≠ none →
        (normalizeLocation s).city ≠ none) := by
  refine ⟨?_, ?_, ?_⟩
  · intro a b d kc hd hand hbnd hahead hblast hane hbne hacity hbcity
    have ha' : a ≠ [] := by
      intro h; rw [h] at hane; exact hane rfl
    have hb' : b ≠ [] := by
      intro h; rw [h] at hbne; exact hbne rfl
    obtain ⟨y, hy⟩ : ∃ y, b.getLast? = some y := by
      cases hby : b.getLast? with
      | none => exact absurd (List.getLast?_eq_none_iff.mp hby) hb'
      | some y => exact ⟨y, rfl⟩
    have hends : ∀ x : Char, trimChars (a ++ x :: b) = a ++ x :: b := by
      intro x
      apply trimChars_eq_self
      · intro c hc
        cases a with
        | nil => exact absurd rfl ha'
        | cons u t =>
            rw [List.cons_append, List.head?_cons, Option.some.injEq] at hc
            exact hc ▸ hahead u rfl
      · intro c hc
        rw [List.getLast?_append] at hc
        have hxb : (x :: b).getLast? = some y := by
          rw [show x :: b = [x] ++ b from rfl, List.getLast?_append, hy]
          rfl
        rw [hxb] at hc
        simp only [Option.or, Option.some.injEq] at hc
        exact hc ▸ hblast y hy
    have hrepl : replaceDelims (a ++ d :: b) = a ++ ',' :: b := by
      have ha2 := replaceDelims_id hand
      have hb2 := replaceDelims_id hbnd
      simp only [replaceDelims, List.map_append, List.map_cons] at ha2 hb2 ⊢
      rw [ha2, hb2, if_pos hd]
    have hparts : locationParts (a ++ d :: b) = [trimChars a, trimChars b] := by
      unfold locationParts
      rw [hrepl, hends ',',
        splitComma_append b (fun c hc he => hand c hc (Or.inl he)),
        splitComma_no_comma (fun c hc he => hbnd c hc (Or.inl he))]
      have hea : (trimChars a).isEmpty = false := by
        cases he : trimChars a with
        | nil => exact absurd he hane
        | cons u t => rfl
      have heb : (trimChars b).isEmpty = false := by
        cases he : trimChars b with
        | nil => exact absurd he hbne
        | cons u t => rfl
      simp [hea, heb]
    have hnil : String.mk (a ++ d :: b) ≠ "" := by
      intro h
      have : a ++ d :: b = ([] : List Char) := congrArg String.toList h
      cases a <;> simp_all
    simp only [normalizeLocation, if_neg hnil]
    have htl : (String.mk (a ++ d :: b)).toList = a ++ d :: b := rfl
    rw [htl, hends d, hparts]
    simp [findCity, hacity, hbcity]
  · intro s hs hnone
    have hfc : findCity (locationParts (trimChars s.toList)) = none := by
      unfold findCity
      rw [List.findSome?_eq_none_iff]
      exact hnone
    simp only [normalizeLocation, if_neg hs]
    rw [hfc]
    simp
  · intro s h
    cases s with
    | none => simp [normalizeLocation] at h
    | some str =>
        by_cases hstr : str = ""
        · rw [hstr] at h
          simp [normalizeLocation] at h
        · simp only [normalizeLocation, if_neg hstr] at h ⊢
          simp only [String.toList] at h ⊢
          cases hf : findCity (locationParts (trimChars str.data)) with
          | none => simp [hf] at h
          | some kc => simp [hf]

/-- Witness for C4: the amended theorem applied at the two quoted example
inputs, and the no-match case at a plain input. -/
theorem claim_C4_witness :
    normalizeLocation (some "Nyali, Mombasa") =
      { area := some "Nyali", city := some "Mombasa", region := some "Coast",
        original := some "Nyali, Mombasa" } ∧
    normalizeLocation (some "Milimani - Kisumu") =
      { area := some "Milimani", city := some "Kisumu", region := some "Nyanza",
        original := some "Milimani - Kisumu" } ∧
    (normalizeLocation (some "Plain text")).city = none := by
  refine ⟨?_, ?_, (claim_C4.2.1 "Plain text" (by decide) (by decide)).1⟩
  · have h := claim_C4.1 "Nyali".toList " Mombasa".toList ',' "mombasa".toList
      (by decide) (by decide) (by decide) (by decide) (by decide) (by decide)
      (by decide) (by decide) (by decide)
    exact h
  · have h := claim_C4.1 "Milimani ".toList " Kisumu".toList '-' "kisumu".toList
      (by decide) (by decide) (by decide) (by decide) (by decide) (by decide)
      (by decide) (by decide) (by decide)
    exact h

/-- C5: for every input to `normalizeContact` (null, string, or object),
every entry of the returned phone sequence is in the canonical form `+254`
followed by nine digits whose first is 1 or 7, the sequence has no
duplicates (dedup by normalized value, first-seen order), and the quoted
concrete evaluations hold, including the two-number first-seen-order
example. -/
theorem claim_C5 :
    (∀ input : ContactInput,
        (∀ p ∈ (normalizeContact input).phone, isCanonicalPhone p = true) ∧
        (normalizeContact input).phone.Nodup) ∧
    (normalizeContact (.cobj { phone := some "0722123456" })).phone =
      ["+254722123456"] ∧
    (normalizeContact (.cobj { phone := some "+254722123456" })).phone =
      ["+254722123456"] ∧
    (normalizeContact (.cobj { phone := some "254722123456" })).phone =
      ["+254722123456"] ∧
    (normalizeContact (.cstr "call 0722123456 or 0733999888")).phone =
      ["+254722123456", "+254733999888"] := by
  refine ⟨?_, by decide, by decide, by decide, by decide⟩
  intro input
  cases input with
  | cnull => simp [normalizeContact]
  | cstr s => exact extractPhoneNumbers_inv s
  | cobj o => exact extractPhoneNumbers_inv _

/-- Witness for C5: the theorem applied at a concrete contact input,
discharging the membership hypothesis at the canonical entry. -/
theorem claim_C5_witness :
    isCanonicalPhone "+254722123456" = true ∧
    (normalizeContact (.cstr "call 0722123456 or 0733999888")).phone.Nodup := by
  have h := claim_C5.1 (.cstr "call 0722123456 or 0733999888")
  exact ⟨h.1 "+254722123456" (by decide), h.2⟩

/-- C6: the code evaluated at the failing input: a URL ending in
`-thumb.jpg` is rewritten to end in the literal characters `.$1` (the
replacement string names capture group 1 but the pattern has none), not to
the claimed full-size `.jpg` form. -/
theorem claim_C6 :
    normalizeImages (.iarr [some "https://example.com/img-thumb.jpg"]) =
      ["https://example.com/img.$1"] ∧
    normalizeImages (.iarr [some "https://example.com/img-thumb.jpg"]) ≠
      ["https://example.com/img.jpg"] := by
  exact ⟨by decide, by decide⟩

/-- C7: the code evaluated at the failing input: on one LIST page the same
detail link, seen twice as a relative href (or once absolute and then once
relative), is enqueued twice, because the dedup test compares the raw href
against the stored absolute URLs; both crawlers share the slip. -/
theorem claim_C7 :
    collectLinksBRK 100 0 [some "/property/1", some "/property/1"] =
      ["https://www.buyrentkenya.com/property/1".toList,
       "https://www.buyrentkenya.com/property/1".toList] ∧
    ¬ (collectLinksBRK 100 0 [some "/property/1", some "/property/1"]).Nodup ∧
    collectLinksJiji 100 0 [some "/item/9", some "/item/9"] =
      ["https://jiji.co.ke/item/9".toList, "https://jiji.co.ke/item/9".toList] ∧
    ¬ (collectLinksJiji 100 0 [some "/item/9", some "/item/9"]).Nodup := by
  refine ⟨by decide, by decide, by decide, by decide⟩

/-- C8: the classification functions are total with the claimed ranges:
`listingType` is always one of sale/rent/unknown and `propertyType` one of
house/apartment/land/commercial/other/unknown; null and empty input map to
unknown; and any non-empty value matching none of the property keyword sets
maps to other. -/
theorem claim_C8 :
    (∀ x : Option String,
        normalizeListingType x ∈ (["sale", "rent", "unknown"] : List String) ∧
        normalizePropertyType x ∈
          (["house", "apartment", "land", "commercial", "other", "unknown"] : List String)) ∧
    normalizeListingType none = "unknown" ∧
    normalizeListingType (some "") = "unknown" ∧
    normalizePropertyType none = "unknown" ∧
    normalizePropertyType (some "") = "unknown" ∧
    (∀ s : String, s ≠ "" →
      (∀ kw ∈ (["house", "villa", "bungalow", "townhouse", "apartment", "flat",
                "studio", "bedsitter", "land", "plot", "commercial", "office",
                "shop", "warehouse"] : List String),
          containsSub (lowerChars s) kw.toList = false) →
      normalizePropertyType (some s) = "other") := by
  refine ⟨?_, rfl, rfl, rfl, rfl, ?_⟩
  · intro x
    constructor
    · cases x with
      | none => simp [normalizeListingType]
      | some s =>
          simp only [normalizeListingType]
          split
          · simp
          · split
            · simp
            · split <;> simp
    · cases x with
      | none => simp [normalizePropertyType]
      | some s =>
          simp only [normalizePropertyType]
          split
          · simp
          · split
            · simp
            · split
              · simp
              · split
                · simp
                · split <;> simp
  · intro s hs hkw
    simp only [List.mem_cons, List.not_mem_nil, or_false, forall_eq_or_imp,
      forall_eq] at hkw
    obtain ⟨h0, h1, h2, h3, h4, h5, h6, h7, h8, h9, h10, h11, h12, h13⟩ := hkw
    have e0 : containsSub (lowerChars s) ['h', 'o', 'u', 's', 'e'] = false := h0
    have e1 : containsSub (lowerChars s) ['v', 'i', 'l', 'l', 'a'] = false := h1
    have e2 : containsSub (lowerChars s) ['b', 'u', 'n', 'g', 'a', 'l', 'o', 'w'] = false := h2
    have e3 : containsSub (lowerChars s) ['t', 'o', 'w', 'n', 'h', 'o', 'u', 's', 'e'] = false := h3
    have e4 : containsSub (lowerChars s) ['a', 'p', 'a', 'r', 't', 'm', 'e', 'n', 't'] = false := h4
    have e5 : containsSub (lowerChars s) ['f', 'l', 'a', 't'] = false := h5
    have e6 : containsSub (lowerChars s) ['s', 't', 'u', 'd', 'i', 'o'] = false := h6
    have e7 : containsSub (lowerChars s) ['b', 'e', 'd', 's', 'i', 't', 't', 'e', 'r'] = false := h7
    have e8 : containsSub (lowerChars s) ['l', 'a', 'n', 'd'] = false := h8
    have e9 : containsSub (lowerChars s) ['p', 'l', 'o', 't'] = false := h9
    have e10 : containsSub (lowerChars s) ['c', 'o', 'm', 'm', 'e', 'r', 'c', 'i', 'a', 'l'] = false := h10
    have e11 : containsSub (lowerChars s) ['o', 'f', 'f', 'i', 'c', 'e'] = false := h11
    have e12 : containsSub (lowerChars s) ['s', 'h', 'o', 'p'] = false := h12
    have e13 : containsSub (lowerChars s) ['w', 'a', 'r', 'e', 'h', 'o', 'u', 's', 'e'] = false := h13
    simp [normalizePropertyType, hs, e0, e1, e2, e3, e4, e5, e6, e7, e8, e9,
      e10, e11, e12, e13]

/-- Witness for C8: a non-empty value matching no keyword set classifies as
`other`. -/
theorem claim_C8_witness : normalizePropertyType (some "weird") = "other" := by
  exact claim_C8.2.2.2.2.2 "weird" (by decide) (by decide)

/-- `Math.ceil(maxListings / sources.length)` as embedded equals the exact
rational ceiling, for a non-empty source list. -/
lemma perSourceQuota_eq_ceil (m n : ℕ) (hn : 0 < n) :
    (perSourceQuota m n : ℤ) = ⌈(m : ℚ) / (n : ℚ)⌉ := by
  set q := perSourceQuota m n with hq
  have h1 : q * n ≤ m + n - 1 := Nat.div_mul_le_self _ _
  have h2 : m + n - 1 < (q + 1) * n := by
    rw [← Nat.div_lt_iff_lt_mul hn]
    exact Nat.lt_succ_self _
  have h3 : (q + 1) * n = q * n + n := by ring
  have hm : m ≤ q * n := by omega
  have hlt : q * n < m + n := by omega
  have hnq : (0 : ℚ) < (n : ℚ) := by exact_mod_cast hn
  symm
  rw [Int.ceil_eq_iff]
  constructor
  · rw [lt_div_iff₀ hnq]
    have : ((q * n : ℕ) : ℚ) < ((m + n : ℕ) : ℚ) := by exact_mod_cast hlt
    push_cast at this ⊢
    linarith
  · rw [div_le_iff₀ hnq]
    have : ((m : ℕ) : ℚ) ≤ ((q * n : ℕ) : ℚ) := by exact_mod_cast hm
    push_cast at this ⊢
    linarith

/-- C9: refuted as stated -- the orchestrator does not skip every
unrecognized source name.  `CRAWLERS` is a plain object literal, so
`CRAWLERS["constructor"]` finds the inherited
`Object.prototype.constructor` (and `CRAWLERS["__proto__"]` finds
`Object.prototype`), a truthy value; the `if (!crawlerFactory)` skip
guard does not fire, the subsequent factory calls throw a TypeError, the
catch block writes a `success: false` summary and rethrows.  Hence for
the source list `["constructor", "jiji"]` the run aborts with
`success: false` and no listings are saved -- the valid source `jiji`
that follows is never scraped -- where the claim asserts a skipped name,
`jiji`'s listings and `success: true`.  By contrast a garden-variety
unknown name such as `nosuch` really is skipped and the run completes. -/
theorem claim_C9 {π α : Type} (maxL : ℕ) (f : SourceId → π → α)
    (reqs : SourceId → List (CrawlReq π)) :
    lookupCrawler "constructor" = .inherited ∧
    lookupCrawler "__proto__" = .inherited ∧
    (mainRun maxL ["constructor", "jiji"] f reqs).2.success = false ∧
    (mainRun maxL ["constructor", "jiji"] f reqs).1 = [] ∧
    (mainRun maxL ["nosuch", "jiji"] f reqs).2.success = true := by
  have h1 : lookupCrawler "constructor" = .inherited := by decide
  have h2 : lookupCrawler "__proto__" = .inherited := by decide
  have h3 : lookupCrawler "nosuch" = .missing := by decide
  have h4 : lookupCrawler "jiji" = .own .jiji := by decide
  refine ⟨h1, h2, ?_, ?_, ?_⟩
  · simp [mainRun, mainLoop, h1]
  · simp [mainRun, mainLoop, h1]
  · simp [mainRun, mainLoop, h3, h4]

/-- C10: every falsy price input (null, the empty string, and the number 0)
yields the all-null price record, so a genuine zero price is
indistinguishable from an absent one. -/
theorem claim_C10 (t : String) :
    normalizePrice .pnull t = { amount := .null, currency := t, original := none } ∧
    normalizePrice (.pstr "") t = { amount := .null, currency := t, original := none } ∧
    normalizePrice (.pnum 0) t = { amount := .null, currency := t, original := none } ∧
    normalizePrice (.pnum 0) t = normalizePrice .pnull t := by
  refine ⟨rfl, ?_, ?_, ?_⟩ <;> simp [normalizePrice, PriceInput.falsy]

end Scraper
